import Mathlib

/-!
Verification development for `picasso/imageprocess.py`.

The file embeds the three functions of the module — `xcorr`,
`get_image_shift` and `rcc` — as executable Lean definitions over
matrices represented as lists of rows with rational entries.

External library calls are modelled as explicit function parameters:
`fft2`/`ifft2` stand for `numpy.fft.fft2`/`ifft2`, `sqrtF` for
`numpy.sqrt`, `fitF` for the `lmfit` 2-D Gaussian fit (the code reads
only the fitted `xc`/`yc` values and, notably, never the convergence
flag), and `pinvF` for `numpy.linalg.pinv`.  Everything the Python code
itself does — broadcasting of the elementwise product, `fftshift`,
Python/numpy slice semantics including negative wrap-around indices and
clipping, `argmax`/`unravel_index`, the design-matrix construction,
`cumsum`/`insert` — is translated directly from the source.

Python errors that the translated operations can raise (a failed
broadcast, `argmax` of an empty array, `max`/`min` of an empty array,
`numpy.zeros` with a negative dimension) are modelled with an explicit
error type; the plotting branch (`display=True`) and the progress
bar/callback of `rcc` are pure side effects with no influence on the
returned values and are omitted.
-/

namespace Picasso

/-- Complex numbers with rational components, modelling the complex
arrays that flow between the FFT calls. -/
structure CQ where
  re : ℚ
  im : ℚ
  deriving DecidableEq, Repr

/-- Complex multiplication on `CQ`. -/
def CQ.mul (a b : CQ) : CQ :=
  ⟨a.re * b.re - a.im * b.im, a.re * b.im + a.im * b.re⟩

/-- Complex conjugation on `CQ`, modelling `numpy.conj`. -/
def CQ.conj (a : CQ) : CQ := ⟨a.re, -a.im⟩

/-- Real 2-D array: list of rows. -/
abbrev RMat := List (List ℚ)

/-- Complex 2-D array: list of rows. -/
abbrev CMat := List (List CQ)

/-- Column count of a rectangular array stored as a list of rows:
the length of the first row (0 for an empty array). -/
def cols (M : List (List α)) : ℕ := (M.headD []).length

/-- Element count of a 2-D array, modelling `ndarray.size`. -/
def size (M : RMat) : ℕ := M.length * cols M

/-- Python/numpy runtime errors the embedded code can raise. -/
inductive NpError where
  /-- `ValueError: operands could not be broadcast together`. -/
  | broadcastMismatch
  /-- `ValueError: attempt to get argmax of an empty sequence`. -/
  | emptyArgmax
  /-- `ValueError: zero-size array to reduction operation` (from
  `FitROI.max()` / `FitROI.min()` on an empty fit window). -/
  | emptyReduce
  /-- `ValueError: negative dimensions are not allowed` (from
  `np.zeros((0, -1))` when `rcc` is called with zero segments). -/
  | negativeDimension
  deriving DecidableEq, Repr

/-- The result of the `lmfit` Gaussian fit as the code consumes it: the
fitted centre `best_values['xc']`, `best_values['yc']`, and the
convergence flag `success` (which the source never reads). -/
structure FitResult where
  xc : ℚ
  yc : ℚ
  success : Bool
  deriving DecidableEq, Repr

/-- Index selection for numpy broadcasting along one axis: an axis of
extent 1 is repeated. -/
def bidx (n i : ℕ) : ℕ := if n = 1 then 0 else i

/-- numpy broadcast compatibility of two axis extents. -/
def bcompat (m n : ℕ) : Bool := m == n || m == 1 || n == 1

/-- Entry of a complex array with out-of-range access defaulting. -/
def entryD (M : CMat) (i j : ℕ) : CQ := (M.getD i []).getD j ⟨0, 0⟩

/-- Elementwise product of two 2-D complex arrays under numpy
broadcasting rules (`FimageA * CFimageB` in `xcorr`): extents must agree
or be 1 along each axis, and an extent-1 axis is repeated. -/
def broadcastMul (A B : CMat) : Except NpError CMat :=
  if bcompat A.length B.length && bcompat (cols A) (cols B) then
    .ok ((List.range (max A.length B.length)).map (fun i =>
      (List.range (max (cols A) (cols B))).map (fun j =>
        CQ.mul (entryD A (bidx A.length i) (bidx (cols A) j))
               (entryD B (bidx B.length i) (bidx (cols B) j)))))
  else .error .broadcastMismatch

/-- Real part of a complex array, modelling `numpy.real`. -/
def matRe (M : CMat) : RMat := M.map (List.map CQ.re)

/-- Conjugate of a complex array, modelling `numpy.conj`. -/
def matConj (M : CMat) : CMat := M.map (List.map CQ.conj)

/-- Circular roll of a list by `s` positions, `np.roll(l, s)`:
entry `i` of the result is entry `(i - s) mod n` of `l`. -/
def roll (d : α) (s : ℕ) (l : List α) : List α :=
  (List.range l.length).map
    (fun i => l.getD ((i + (l.length - s % l.length)) % l.length) d)

/-- `np.fft.fftshift` on a 2-D array: roll each axis by half its
extent, moving the zero-frequency (zero-lag) component to the centre. -/
def fftshift2 (M : RMat) : RMat :=
  (roll [] (M.length / 2) M).map (fun r => roll 0 (r.length / 2) r)

/-- Normalised Python index for slice bounds on a sequence of length
`n`: a negative index counts from the end, and the result is clipped
into `[0, n]`. -/
def pyBound (n : ℕ) (i : ℤ) : ℕ :=
  (max 0 (min (n : ℤ) (if i < 0 then i + n else i))).toNat

/-- Python slice `l[a:b]` (step 1), with negative-index wrap-around and
clipping exactly as in Python/numpy basic slicing. -/
def pySlice (l : List α) (a b : ℤ) : List α :=
  (l.take (pyBound l.length b)).drop (pyBound l.length a)

/-- 2-D slice `M[r0:r1, c0:c1]` of a numpy array stored as rows. -/
def pySlice2d (M : List (List α)) (r0 r1 c0 c1 : ℤ) : List (List α) :=
  (pySlice M r0 r1).map (fun row => pySlice row c0 c1)

/-- Python `int((a) / 2)` for an integer `a`: exact division by two
truncated toward zero, as applied to `Y - roi` and `X - roi`. -/
def pyTruncHalf (a : ℤ) : ℤ :=
  if 0 ≤ a then ((a.toNat / 2 : ℕ) : ℤ) else -(((-a).toNat / 2 : ℕ) : ℤ)

/-- Index of the first maximal entry of a list, modelling
`ndarray.argmax` on the flattened array (meaningful only for nonempty
input; the caller checks emptiness first, as numpy raises there). -/
def argmaxIdx (l : List ℚ) : ℕ :=
  (l.foldl
    (fun (st : ℕ × ℕ × ℚ) q =>
      if st.2.2 < q then (st.2.1, st.2.1 + 1, q) else (st.1, st.2.1 + 1, st.2.2))
    (0, 0, l.headD 0)).1

/-- The fit-window slice of `get_image_shift` (line 45 of the source):
`XCorr[y_max_ - fit_X + Y_ : y_max_ + fit_X + Y_ + 1,
       x_max_ - fit_X + X_ : x_max_ + fit_X + X_ + 1]`. -/
def fitROIslice (XCorr : RMat) (ymax xmax : ℕ) (Y_ X_ : ℤ) (fx : ℕ) : RMat :=
  pySlice2d XCorr ((ymax : ℤ) - fx + Y_) ((ymax : ℤ) + fx + Y_ + 1)
                  ((xmax : ℤ) - fx + X_) ((xmax : ℤ) + fx + X_ + 1)

section Model

variable (fft2 : RMat → CMat) (ifft2 : CMat → CMat) (sqrtF : ℚ → ℚ)
variable (fitF : RMat → FitResult) (pinvF : RMat → RMat)

/-- Embedding of `xcorr` (imageprocess.py, lines 20–23):
`fftshift(real(ifft2(fft2(imageA) * conj(fft2(imageB))))) / sqrt(imageA.size)`.
The only failure point is the broadcast of the elementwise product;
there is no shape check of any kind in the source. -/
def xcorr (imageA imageB : RMat) : Except NpError RMat :=
  match broadcastMul (fft2 imageA) (matConj (fft2 imageB)) with
  | .error e => .error e
  | .ok P =>
      .ok ((fftshift2 (matRe (ifft2 P))).map
        (List.map (fun q => q / sqrtF ((size imageA : ℕ) : ℚ))))

/-- Tail of `get_image_shift` after the search window `XCorr_` has been
cut out (lines 40–81 of the source): find the brightest pixel of the
window, cut the fit ROI out of the full surface, fit, add the offsets
`Y_`/`X_` and the integer peak, subtract the image centre and negate.
`argmax` on an empty window and `max`/`min` on an empty fit ROI raise. -/
def shiftFromWindow (XCorr : RMat) (Y X box : ℕ) (Y_ X_ : ℤ)
    (XCorr_ : RMat) : Except NpError (ℚ × ℚ) :=
  let fit_X := box / 2
  if (XCorr_.flatten).isEmpty then .error .emptyArgmax
  else
    let idx := argmaxIdx XCorr_.flatten
    let y_max_ := idx / cols XCorr_
    let x_max_ := idx % cols XCorr_
    let FitROI := fitROIslice XCorr y_max_ x_max_ Y_ X_ fit_X
    if FitROI.flatten.isEmpty then .error .emptyReduce
    else
      let res := fitF FitROI
      let yc : ℚ := (res.yc + ((Y_ : ℚ) + (y_max_ : ℚ))) - (Y : ℚ) / 2
      let xc : ℚ := (res.xc + ((X_ : ℚ) + (x_max_ : ℚ))) - (X : ℚ) / 2
      .ok (-yc, -xc)

/-- Search-window selection of `get_image_shift` (lines 31–38): with a
`roi`, offsets `Y_ = int((Y - roi)/2)`, `X_ = int((X - roi)/2)` and the
centre cut `XCorr[Y_:-Y_, X_:-X_]`; without, the full surface. -/
def shiftSearch (XCorr : RMat) (Y X box : ℕ) (roi : Option ℤ) :
    Except NpError (ℚ × ℚ) :=
  match roi with
  | some r =>
      let Y_ := pyTruncHalf ((Y : ℤ) - r)
      let X_ := pyTruncHalf ((X : ℤ) - r)
      shiftFromWindow fitF XCorr Y X box Y_ X_
        (pySlice2d XCorr Y_ (-Y_) X_ (-X_))
  | none => shiftFromWindow fitF XCorr Y X box 0 0 XCorr

/-- Embedding of `get_image_shift` (lines 26–81): correlate, search,
fit, and return `(-yc, -xc)`.  `Y, X = imageA.shape`; the `display`
branch only plots and is omitted. -/
def get_image_shift (imageA imageB : RMat) (box : ℕ) (roi : Option ℤ) :
    Except NpError (ℚ × ℚ) :=
  match xcorr fft2 ifft2 sqrtF imageA imageB with
  | .error e => .error e
  | .ok XCorr => shiftSearch fitF XCorr imageA.length (cols imageA) box roi

/-- Pipeline of `get_image_shift` up to the recovered sub-pixel peak in
full-surface coordinates (lines 62–66: `xc += X_ + x_max_`,
`yc += Y_ + y_max_`), before the centre subtraction and negation of
lines 79–81.  Used to state the sign-convention claim. -/
def peakFromWindow (XCorr : RMat) (box : ℕ) (Y_ X_ : ℤ) (XCorr_ : RMat) :
    Except NpError (ℚ × ℚ) :=
  let fit_X := box / 2
  if (XCorr_.flatten).isEmpty then .error .emptyArgmax
  else
    let idx := argmaxIdx XCorr_.flatten
    let y_max_ := idx / cols XCorr_
    let x_max_ := idx % cols XCorr_
    let FitROI := fitROIslice XCorr y_max_ x_max_ Y_ X_ fit_X
    if FitROI.flatten.isEmpty then .error .emptyReduce
    else
      let res := fitF FitROI
      .ok (res.yc + ((Y_ : ℚ) + (y_max_ : ℚ)), res.xc + ((X_ : ℚ) + (x_max_ : ℚ)))

/-- The recovered sub-pixel peak of `get_image_shift` in full-surface
coordinates, composed over the same correlation and search-window
selection as the function itself. -/
def recoveredPeak (imageA imageB : RMat) (box : ℕ) (roi : Option ℤ) :
    Except NpError (ℚ × ℚ) :=
  match xcorr fft2 ifft2 sqrtF imageA imageB with
  | .error e => .error e
  | .ok XCorr =>
      match roi with
      | some r =>
          let Y_ := pyTruncHalf ((imageA.length : ℤ) - r)
          let X_ := pyTruncHalf ((cols imageA : ℤ) - r)
          peakFromWindow fitF XCorr box Y_ X_
            (pySlice2d XCorr Y_ (-Y_) X_ (-X_))
      | none => peakFromWindow fitF XCorr box 0 0 XCorr

/-- Centered crop with offsets: rows `y0 .. M.length - y0 - 1` and the
analogous column range of each row.  This is the (amended) description
of the search window that the `roi` slice of the source produces when
both offsets are at least 1. -/
def centeredCrop (M : RMat) (y0 x0 : ℕ) : RMat :=
  ((M.drop y0).take (M.length - 2 * y0)).map
    (fun row => (row.drop x0).take (row.length - 2 * x0))

/-- Search restricted to the explicitly centered crop, followed by the
unchanged remainder of `get_image_shift`; the `roi` refinement claim
compares the source's slice-based search against this definition. -/
def shiftSearchSpec (XCorr : RMat) (Y X box : ℕ) (r : ℤ) :
    Except NpError (ℚ × ℚ) :=
  let Y_ := pyTruncHalf ((Y : ℤ) - r)
  let X_ := pyTruncHalf ((X : ℤ) - r)
  shiftFromWindow fitF XCorr Y X box Y_ X_ (centeredCrop XCorr Y_.toNat X_.toNat)

/-- Modelled from the spec: the cross-power / inverse-transform /
shift / normalise composition of §4.1 for two equal-shaped inputs, with
a plain (broadcast-free) elementwise product `FA * conj(FB)` and
normalisation by `sqrt(H * W)`. -/
def specXcorr (A B : RMat) : RMat :=
  (fftshift2 (matRe (ifft2
      (List.zipWith (fun r s => List.zipWith CQ.mul r s)
        (fft2 A) (matConj (fft2 B)))))).map
    (List.map (fun q => q / sqrtF ((A.length * cols A : ℕ) : ℚ)))

/-- The ideal fit window of spec §4.2 step 4: the full
`(2*fx+1) × (2*fx+1)` block of entries centred at the peak `(py, px)`
(entries read with defaulting; only its shape is ever used). -/
def centeredAt (M : RMat) (py px fx : ℕ) : RMat :=
  (List.range (2 * fx + 1)).map (fun dy =>
    (List.range (2 * fx + 1)).map (fun dx =>
      (M.getD (py + dy - fx) []).getD (px + dx - fx) 0))

/-- Lexicographic enumeration of the index pairs of the `rcc` double
loop: `for i in range(n_segments - 1): for j in range(i+1, n_segments)`. -/
def pairsList (n : ℕ) : List (ℕ × ℕ) :=
  (List.range (n - 1)).flatMap
    (fun i => (List.range' (i + 1) (n - (i + 1))).map (fun j => (i, j)))

/-- Row of the design matrix for pair `(i, j)`: the slice assignment
`A[flag, i:j] = 1` applied to a zero row of length `n - 1` sets exactly
the columns `c` with `i ≤ c < j` to 1. -/
def designRow (n i j : ℕ) : List ℚ :=
  (List.range (n - 1)).map (fun c => if i ≤ c ∧ c < j then 1 else 0)

/-- The design matrix `A` of `rcc`: one row per enumerated pair, in
loop (lexicographic) order. -/
def designA (n : ℕ) : RMat :=
  (pairsList n).map (fun p => designRow n p.1 p.2)

/-- Exception-propagating map, modelling the `rcc` pair loop: the loop
body runs left to right and the first raised error aborts the run. -/
def mapExcept (f : α → Except ε β) : List α → Except ε (List β)
  | [] => .ok []
  | a :: t =>
    match f a with
    | .error e => .error e
    | .ok b =>
      match mapExcept f t with
      | .error e => .error e
      | .ok bs => .ok (b :: bs)

/-- Dot product of two rational vectors. -/
def dotQ (u v : List ℚ) : ℚ := (List.zipWith (fun a b => a * b) u v).sum

/-- Column `j` of a matrix (entries defaulting to 0), modelling
`M[:, j]`. -/
def colD (j : ℕ) (M : RMat) : List ℚ := M.map (fun r => r.getD j 0)

/-- Matrix product `np.dot`. -/
def matMul (A B : RMat) : RMat :=
  A.map (fun r => (List.range (cols B)).map (fun j => dotQ r (colD j B)))

/-- Cumulative sums starting from accumulator `acc`. -/
def cumsumFrom (acc : ℚ) : List ℚ → List ℚ
  | [] => []
  | q :: t => (acc + q) :: cumsumFrom (acc + q) t

/-- `np.cumsum` of a vector. -/
def cumsum (l : List ℚ) : List ℚ := cumsumFrom 0 l

/-- Embedding of `rcc` (lines 84–106).  For zero segments
`np.zeros((0, n_segments - 1))` has a negative dimension and raises.
Otherwise: correlate every pair in loop order (an exception in any pair
aborts the run), build `rij` and `A`, solve `Dj = pinv(A) @ rij`, and
return `insert(cumsum(Dj[:, 0]), 0, 0)` and the same for column 1.
The progress bar and `callback` do not affect the value and are
omitted. -/
def rcc (segments : List RMat) (max_shift : Option ℤ) :
    Except NpError (List ℚ × List ℚ) :=
  let n := segments.length
  if n = 0 then .error .negativeDimension
  else
    match mapExcept
        (fun p => get_image_shift fft2 ifft2 sqrtF fitF
          (segments.getD p.1 []) (segments.getD p.2 []) 5 max_shift)
        (pairsList n) with
    | .error e => .error e
    | .ok shifts =>
        let rij : RMat := shifts.map (fun s => [s.1, s.2])
        let A := designA n
        let Dj := matMul (pinvF A) rij
        .ok ((0 : ℚ) :: cumsum (colD 0 Dj), (0 : ℚ) :: cumsum (colD 1 Dj))

/-- The per-step increment matrix `Dj = pinv(A) @ rij` of `rcc`, for a
run in which pair `p` measured the shift `sh p`. -/
def solvedD (n : ℕ) (sh : ℕ × ℕ → ℚ × ℚ) : RMat :=
  matMul (pinvF (designA n)) ((pairsList n).map (fun p => [(sh p).1, (sh p).2]))

/-- The y-trajectory `insert(cumsum(Dj[:, 0]), 0, 0)` of such a run. -/
def trajY (n : ℕ) (sh : ℕ × ℕ → ℚ × ℚ) : List ℚ :=
  (0 : ℚ) :: cumsum (colD 0 (solvedD pinvF n sh))

/-- The x-trajectory `insert(cumsum(Dj[:, 1]), 0, 0)` of such a run. -/
def trajX (n : ℕ) (sh : ℕ × ℕ → ℚ × ℚ) : List ℚ :=
  (0 : ℚ) :: cumsum (colD 1 (solvedD pinvF n sh))

end Model

/-- Whether an `Except` computation succeeded. -/
def exceptOk (e : Except ε α) : Bool :=
  match e with
  | .ok _ => true
  | .error _ => false

/-- Concrete shape-preserving stand-in for `numpy.fft.fft2` used by the
closed witness instances: embed the real array into the complex plane. -/
def cFft : RMat → CMat := fun M => M.map (List.map (fun q => ⟨q, 0⟩))

/-- Concrete stand-in for `numpy.fft.ifft2` in witness instances. -/
def cIfft : CMat → CMat := fun M => M

/-- Concrete stand-in for `numpy.sqrt` in witness instances. -/
def cSqrt : ℚ → ℚ := fun q => q

/-- Concrete fit stand-in that converged at the window centre. -/
def cFitZ : RMat → FitResult := fun _ => ⟨0, 0, true⟩

/-- Concrete fit stand-in that did not converge (`success = false`)
but still carries best-fit values, as `lmfit` results do. -/
def cFitBad : RMat → FitResult := fun _ => ⟨7/10, -3/10, false⟩

/-- Concrete fit stand-in identical to `cFitBad` except for the
convergence flag. -/
def cFitBadOk : RMat → FitResult := fun _ => ⟨7/10, -3/10, true⟩

/-- Concrete `pinv` stand-in agreeing with `numpy.linalg.pinv` on the
empty (0 × 0) matrix. -/
def cPinvNil : RMat → RMat := fun _ => []

/-- Concrete `pinv` stand-in for the two-segment witness, where the
design matrix is the 1 × 1 identity. -/
def cPinvOne : RMat → RMat := fun _ => [[1]]

/-- Concrete 3 × 3 all-ones image used by witness instances. -/
def ones3 : RMat := [[1, 1, 1], [1, 1, 1], [1, 1, 1]]

/-- The correlation surface of `ones3` with itself under the concrete
witness stand-ins (kept in unevaluated form so that witness hypotheses
about it reduce definitionally). -/
def cSurf3 : RMat :=
  match xcorr cFft cIfft cSqrt ones3 ones3 with
  | .ok S => S
  | .error _ => []

end Picasso

namespace Picasso

/-! ### Helper lemmas -/

theorem length_matConj (M : CMat) : (matConj M).length = M.length := by
  simp [matConj]

theorem cols_matConj (M : CMat) : cols (matConj M) = cols M := by
  cases M with
  | nil => rfl
  | cons r t => simp [matConj, cols]

theorem mapExcept_ok (f : α → Except ε β) (g : α → β) :
    ∀ l : List α, (∀ a ∈ l, f a = .ok (g a)) → mapExcept f l = .ok (l.map g) := by
  intro l
  induction l with
  | nil => intro _; rfl
  | cons a t ih =>
      intro h
      have ha := h a (List.mem_cons_self a t)
      have ht := ih (fun x hx => h x (List.mem_cons_of_mem a hx))
      simp [mapExcept, ha, ht]

theorem cumsumFrom_length (acc : ℚ) (l : List ℚ) :
    (cumsumFrom acc l).length = l.length := by
  induction l generalizing acc with
  | nil => rfl
  | cons q t ih => simp [cumsumFrom, ih]

theorem cumsumFrom_getD (l : List ℚ) :
    ∀ (acc : ℚ) (k : ℕ), k < l.length →
      (cumsumFrom acc l).getD k 0 = acc + (l.take (k + 1)).sum := by
  induction l with
  | nil => intro acc k hk; simp at hk
  | cons q t ih =>
      intro acc k hk
      cases k with
      | zero => simp [cumsumFrom]
      | succ m =>
          have hm : m < t.length := by simpa using hk
          simp only [cumsumFrom, List.getD_cons_succ, List.take_succ_cons,
            List.sum_cons]
          rw [ih (acc + q) m hm]
          ring

theorem cumsum_getD (l : List ℚ) (k : ℕ) (hk : k < l.length) :
    (cumsum l).getD k 0 = (l.take (k + 1)).sum := by
  rw [cumsum, cumsumFrom_getD l 0 k hk, zero_add]

/-! ### C7: sign convention of the returned shift -/

theorem shiftFromWindow_eq_peak (fitF : RMat → FitResult) (XCorr : RMat)
    (Y X box : ℕ) (Y_ X_ : ℤ) (XCorr_ : RMat) :
    shiftFromWindow fitF XCorr Y X box Y_ X_ XCorr_ =
      (peakFromWindow fitF XCorr box Y_ X_ XCorr_).map
        (fun p => (-(p.1 - (Y : ℚ) / 2), -(p.2 - (X : ℚ) / 2))) := by
  simp only [shiftFromWindow, peakFromWindow]
  split
  · rfl
  · split
    · rfl
    · rfl

/-- C7: `get_image_shift` converts the recovered sub-pixel peak to a
shift relative to the image centre as `shift = -(peak - centre)`,
returning `(-(y_peak - H/2), -(x_peak - W/2))` in the order
`(shift_y, shift_x)`. -/
theorem get_image_shift_sign_convention (fft2 : RMat → CMat)
    (ifft2 : CMat → CMat) (sqrtF : ℚ → ℚ) (fitF : RMat → FitResult)
    (A B : RMat) (box : ℕ) (roi : Option ℤ) :
    get_image_shift fft2 ifft2 sqrtF fitF A B box roi =
      (recoveredPeak fft2 ifft2 sqrtF fitF A B box roi).map
        (fun p => (-(p.1 - (A.length : ℚ) / 2), -(p.2 - (cols A : ℚ) / 2))) := by
  unfold get_image_shift recoveredPeak
  cases hxc : xcorr fft2 ifft2 sqrtF A B with
  | error e => rfl
  | ok XCorr =>
      unfold shiftSearch
      cases roi with
      | none => exact shiftFromWindow_eq_peak fitF XCorr A.length (cols A) box 0 0 XCorr
      | some r => exact shiftFromWindow_eq_peak fitF XCorr A.length (cols A) box _ _ _

/-! ### C5: the fit convergence flag is never inspected -/

theorem shiftFromWindow_fit_congr (fit1 fit2 : RMat → FitResult)
    (h : ∀ M, (fit1 M).xc = (fit2 M).xc ∧ (fit1 M).yc = (fit2 M).yc)
    (XCorr : RMat) (Y X box : ℕ) (Y_ X_ : ℤ) (XCorr_ : RMat) :
    shiftFromWindow fit1 XCorr Y X box Y_ X_ XCorr_ =
      shiftFromWindow fit2 XCorr Y X box Y_ X_ XCorr_ := by
  simp only [shiftFromWindow]
  split
  · rfl
  · split
    · rfl
    · rw [(h _).1, (h _).2]

/-- C5 counterexample: the source never surfaces a fit-divergence
error.  With a fit whose `success` flag is `false`, `get_image_shift`
still returns a shift computed from the non-converged best-fit values
instead of an error. -/
theorem fit_divergence_ignored_cex :
    (cFitBad [[1]]).success = false ∧
    get_image_shift cFft cIfft cSqrt cFitBad [[1]] [[1]] 5 none =
      .ok (4/5, -1/5) := by
  refine ⟨rfl, ?_⟩
  have hx : xcorr cFft cIfft cSqrt [[1]] [[1]] = .ok [[1]] := by
    norm_num [xcorr, broadcastMul, bcompat, cols, entryD, bidx, matConj, matRe,
      fftshift2, roll, size, cFft, cIfft, cSqrt, CQ.mul, CQ.conj, List.range_succ]
  simp only [get_image_shift, hx]
  norm_num [shiftSearch, shiftFromWindow, argmaxIdx, cols, fitROIslice, pySlice2d,
    pySlice, pyBound, cFitBad, List.flatten]

/-- C5 (amended): `get_image_shift` never inspects the convergence flag
of the fit result — its value depends only on the fitted `xc`/`yc`
fields, so a non-converged fit is silently used to produce a shift. -/
theorem get_image_shift_ignores_fit_success (fft2 : RMat → CMat)
    (ifft2 : CMat → CMat) (sqrtF : ℚ → ℚ) (fit1 fit2 : RMat → FitResult)
    (A B : RMat) (box : ℕ) (roi : Option ℤ)
    (h : ∀ M, (fit1 M).xc = (fit2 M).xc ∧ (fit1 M).yc = (fit2 M).yc) :
    get_image_shift fft2 ifft2 sqrtF fit1 A B box roi =
      get_image_shift fft2 ifft2 sqrtF fit2 A B box roi := by
  unfold get_image_shift
  cases hxc : xcorr fft2 ifft2 sqrtF A B with
  | error e => rfl
  | ok XCorr =>
      unfold shiftSearch
      cases roi with
      | none => exact shiftFromWindow_fit_congr fit1 fit2 h XCorr _ _ box 0 0 XCorr
      | some r => exact shiftFromWindow_fit_congr fit1 fit2 h XCorr _ _ box _ _ _

theorem get_image_shift_ignores_fit_success_witness :
    get_image_shift cFft cIfft cSqrt cFitBad [[1]] [[1]] 5 none =
      get_image_shift cFft cIfft cSqrt cFitBadOk [[1]] [[1]] 5 none :=
  get_image_shift_ignores_fit_success cFft cIfft cSqrt cFitBad cFitBadOk
    [[1]] [[1]] 5 none (fun _ => ⟨rfl, rfl⟩)

/-! ### C3: no shape check anywhere in the correlator -/

/-- C3 counterexample: two matrices of different shapes, (1,2) versus
(2,2), for which `xcorr` succeeds and returns a surface — no
ShapeMismatch error exists in the code, and broadcast-compatible
mismatched shapes are accepted silently. -/
theorem xcorr_shape_mismatch_cex :
    (([[1, 2]] : RMat).length, cols ([[1, 2]] : RMat)) ≠
      (([[1, 0], [0, 1]] : RMat).length, cols ([[1, 0], [0, 1]] : RMat)) ∧
    xcorr cFft cIfft cSqrt [[1, 2]] [[1, 0], [0, 1]] =
      .ok [[1, 0], [0, 1/2]] := by
  refine ⟨by decide, ?_⟩
  norm_num [xcorr, broadcastMul, bcompat, cols, entryD, bidx, matConj, matRe,
    fftshift2, roll, size, cFft, cIfft, cSqrt, CQ.mul, CQ.conj, List.range_succ]

/-- C3 (amended): neither `xcorr` nor `get_image_shift` checks input
shapes.  For any two inputs whose shapes are numpy-broadcast-compatible
along both axes — equal or not — `xcorr` returns a correlation surface
without error (for any shape-preserving transform pair). -/
theorem xcorr_no_shape_check (fft2 : RMat → CMat) (ifft2 : CMat → CMat)
    (sqrtF : ℚ → ℚ) (A B : RMat)
    (hAr : (fft2 A).length = A.length) (hAc : cols (fft2 A) = cols A)
    (hBr : (fft2 B).length = B.length) (hBc : cols (fft2 B) = cols B)
    (hrow : bcompat A.length B.length = true)
    (hcol : bcompat (cols A) (cols B) = true) :
    exceptOk (xcorr fft2 ifft2 sqrtF A B) = true := by
  have hc : (bcompat (fft2 A).length (matConj (fft2 B)).length &&
      bcompat (cols (fft2 A)) (cols (matConj (fft2 B)))) = true := by
    rw [length_matConj, cols_matConj, hAr, hAc, hBr, hBc, hrow, hcol]
    rfl
  simp only [xcorr, broadcastMul, hc, if_true]
  rfl

theorem xcorr_no_shape_check_witness :
    ([[1, 2]] : RMat).length ≠ ([[3], [4]] : RMat).length ∧
    exceptOk (xcorr cFft cIfft cSqrt [[1, 2]] [[3], [4]]) = true :=
  ⟨by decide,
    xcorr_no_shape_check cFft cIfft cSqrt [[1, 2]] [[3], [4]]
      rfl rfl rfl rfl (by decide) (by decide)⟩

/-! ### C4: no singularity check in rcc -/

/-- C4 counterexample: a single segment (`N = 1 < 2`) — `rcc` reports
no SingularSystem error; it silently returns the trivial length-1
trajectory `([0], [0])`. -/
theorem rcc_singular_unchecked_cex :
    rcc cFft cIfft cSqrt cFitZ cPinvNil [[[1]]] none = .ok ([0], [0]) :=
  rfl

/-- C4 (amended): `rcc` performs no singularity or rank check at all:
the system is handed to the pseudo-inverse unconditionally, and for a
single segment (`N = 1`, an empty design matrix, on which `numpy`'s
`pinv` returns the empty matrix) it returns the trivial trajectory
`([0], [0])` with no error rather than reporting a singular system. -/
theorem rcc_no_singular_check (fft2 : RMat → CMat) (ifft2 : CMat → CMat)
    (sqrtF : ℚ → ℚ) (fitF : RMat → FitResult) (pinvF : RMat → RMat)
    (hp : pinvF [] = []) (seg : RMat) :
    rcc fft2 ifft2 sqrtF fitF pinvF [seg] none = .ok ([0], [0]) := by
  simp [rcc, pairsList, designA, mapExcept, hp, matMul, colD, cumsum, cumsumFrom]

theorem rcc_no_singular_check_witness :
    cPinvNil [] = [] ∧
    rcc cFft cIfft cSqrt cFitZ cPinvNil [[[1]]] none = .ok ([0], [0]) :=
  ⟨rfl, rcc_no_singular_check cFft cIfft cSqrt cFitZ cPinvNil rfl [[1]]⟩

end Picasso

namespace Picasso

/-! ### C2: structure of the design matrix -/

theorem list_sum_range_eq [AddCommMonoid M] (f : ℕ → M) (m : ℕ) :
    ((List.range m).map f).sum = ∑ i ∈ Finset.range m, f i := by
  induction m with
  | zero => simp
  | succ k ih => rw [List.sum_range_succ, Finset.sum_range_succ, ih]

theorem two_mul_length_pairsList (n : ℕ) :
    2 * (pairsList n).length = n * (n - 1) := by
  cases n with
  | zero => rfl
  | succ k =>
      rw [pairsList, List.length_flatMap]
      have h1 : (List.map
          (List.length ∘ fun i => (List.range' (i + 1) (k + 1 - (i + 1))).map
            (fun j => (i, j))) (List.range (k + 1 - 1))).sum =
          ∑ i ∈ Finset.range k, (k - i) := by
        rw [show k + 1 - 1 = k from rfl, ← list_sum_range_eq]
        congr 1
        apply List.map_congr_left
        intro i hi
        have hik : i < k := List.mem_range.mp hi
        simp only [Function.comp_apply, List.length_map, List.length_range']
        omega
      rw [h1]
      have h2 : ∑ i ∈ Finset.range k, (k - i) = ∑ i ∈ Finset.range k, (i + 1) := by
        rw [← Finset.sum_range_reflect (fun j => j + 1) k]
        apply Finset.sum_congr rfl
        intro i hi
        have : i < k := Finset.mem_range.mp hi
        omega
      rw [h2, Finset.sum_add_distrib, Finset.sum_const, Finset.card_range,
        smul_eq_mul, mul_one]
      have h3 := Finset.sum_range_id_mul_two k
      have h4 : (∑ i ∈ Finset.range k, i) * 2 = k * (k - 1) := h3
      cases k with
      | zero => rfl
      | succ m =>
          have h5 : (∑ i ∈ Finset.range (m + 1), i) * 2 = (m + 1) * m := by
            rw [h4]
            rfl
          show 2 * ((∑ i ∈ Finset.range (m + 1), i) + (m + 1)) = (m + 2) * (m + 1)
          calc 2 * ((∑ i ∈ Finset.range (m + 1), i) + (m + 1))
              = (∑ i ∈ Finset.range (m + 1), i) * 2 + 2 * (m + 1) := by ring
            _ = (m + 1) * m + 2 * (m + 1) := by rw [h5]
            _ = (m + 2) * (m + 1) := by ring

theorem length_pairsList (n : ℕ) : (pairsList n).length = n * (n - 1) / 2 := by
  have := two_mul_length_pairsList n
  omega

theorem mem_pairsList (n i j : ℕ) : (i, j) ∈ pairsList n ↔ i < j ∧ j < n := by
  simp only [pairsList, List.mem_flatMap, List.mem_map, List.mem_range,
    List.mem_range'_1, Prod.mk.injEq]
  constructor
  · rintro ⟨a, ha, b, ⟨hb1, hb2⟩, rfl, rfl⟩
    omega
  · intro h
    exact ⟨i, by omega, j, ⟨by omega, by omega⟩, rfl, rfl⟩

theorem pairwise_pairsList (n : ℕ) :
    List.Pairwise (fun p q : ℕ × ℕ => p.1 < q.1 ∨ (p.1 = q.1 ∧ p.2 < q.2))
      (pairsList n) := by
  rw [pairsList, List.flatMap_def, List.pairwise_flatten]
  constructor
  · intro l hl
    obtain ⟨i, _, rfl⟩ := List.mem_map.mp hl
    rw [List.pairwise_map]
    apply List.Pairwise.imp _ (List.pairwise_lt_range' (i + 1) (n - (i + 1)))
    intro a b hab
    exact Or.inr ⟨rfl, hab⟩
  · rw [List.pairwise_map]
    apply List.Pairwise.imp _ (List.pairwise_lt_range n.pred)
    intro a b hab x hx y hy
    obtain ⟨ja, _, rfl⟩ := List.mem_map.mp hx
    obtain ⟨jb, _, rfl⟩ := List.mem_map.mp hy
    exact Or.inl hab

theorem length_designRow (n i j : ℕ) : (designRow n i j).length = n - 1 := by
  simp [designRow]

theorem designRow_getD (n i j c : ℕ) (hc : c < n - 1) :
    (designRow n i j).getD c 0 = if i ≤ c ∧ c < j then 1 else 0 := by
  rw [designRow,
    List.getD_eq_getElem _ _ (by simpa using hc),
    List.getElem_map, List.getElem_range]

theorem designRow_sum (n i j : ℕ) (hij : i < j) (hjn : j < n) :
    (designRow n i j).sum = ((j : ℚ) - (i : ℚ)) := by
  rw [designRow, list_sum_range_eq, Finset.sum_boole]
  have hfilter : Finset.filter (fun c => i ≤ c ∧ c < j) (Finset.range (n - 1)) =
      Finset.Ico i j := by
    apply Finset.ext
    intro c
    simp only [Finset.mem_filter, Finset.mem_range, Finset.mem_Ico]
    omega
  rw [hfilter, Nat.card_Ico]
  push_cast [Nat.cast_sub (le_of_lt hij)]
  ring

/-- C2: for every `N ≥ 2` the design matrix of `rcc` has exactly
`N(N-1)/2` rows of `N-1` columns each; the pairs `(i, j)`,
`0 ≤ i < j < N`, are enumerated in lexicographic order (`i` ascending
outer, `j` ascending inner) and row `k` is the row for the `k`-th pair;
the row for `(i, j)` has a 1 exactly in columns `i ≤ c < j` and 0
elsewhere, and sums to `j - i`. -/
theorem design_matrix_props (N : ℕ) (h2 : 2 ≤ N) :
    (pairsList N).length = N * (N - 1) / 2 ∧
    (designA N).length = N * (N - 1) / 2 ∧
    (∀ row ∈ designA N, row.length = N - 1) ∧
    List.Pairwise (fun p q : ℕ × ℕ => p.1 < q.1 ∨ (p.1 = q.1 ∧ p.2 < q.2))
      (pairsList N) ∧
    (∀ p : ℕ × ℕ, p ∈ pairsList N ↔ p.1 < p.2 ∧ p.2 < N) ∧
    (∀ k, k < (pairsList N).length →
      (designA N).getD k [] =
        designRow N ((pairsList N).getD k (0, 0)).1 ((pairsList N).getD k (0, 0)).2) ∧
    (∀ i j c : ℕ, c < N - 1 →
      (designRow N i j).getD c 0 = if i ≤ c ∧ c < j then 1 else 0) ∧
    (∀ p ∈ pairsList N, (designRow N p.1 p.2).sum = ((p.2 : ℚ) - (p.1 : ℚ))) := by
  refine ⟨length_pairsList N, ?_, ?_, pairwise_pairsList N, ?_, ?_, ?_, ?_⟩
  · rw [designA, List.length_map, length_pairsList]
  · intro row hrow
    obtain ⟨p, _, rfl⟩ := List.mem_map.mp hrow
    exact length_designRow N p.1 p.2
  · intro p
    obtain ⟨i, j⟩ := p
    exact mem_pairsList N i j
  · intro k hk
    rw [designA,
      List.getD_eq_getElem _ _ (by simpa using hk),
      List.getD_eq_getElem _ _ hk,
      List.getElem_map]
  · intro i j c hc
    exact designRow_getD N i j c hc
  · intro p hp
    obtain ⟨i, j⟩ := p
    obtain ⟨hij, hjn⟩ := (mem_pairsList N i j).mp hp
    exact designRow_sum N i j hij hjn

theorem design_matrix_props_witness :
    (2 : ℕ) ≤ 3 ∧
    ((pairsList 3).length = 3 * (3 - 1) / 2 ∧
      (designA 3).length = 3 * (3 - 1) / 2 ∧
      (∀ row ∈ designA 3, row.length = 3 - 1) ∧
      List.Pairwise (fun p q : ℕ × ℕ => p.1 < q.1 ∨ (p.1 = q.1 ∧ p.2 < q.2))
        (pairsList 3) ∧
      (∀ p : ℕ × ℕ, p ∈ pairsList 3 ↔ p.1 < p.2 ∧ p.2 < 3) ∧
      (∀ k, k < (pairsList 3).length →
        (designA 3).getD k [] =
          designRow 3 ((pairsList 3).getD k (0, 0)).1 ((pairsList 3).getD k (0, 0)).2) ∧
      (∀ i j c : ℕ, c < 3 - 1 →
        (designRow 3 i j).getD c 0 = if i ≤ c ∧ c < j then 1 else 0) ∧
      (∀ p ∈ pairsList 3, (designRow 3 p.1 p.2).sum = ((p.2 : ℚ) - (p.1 : ℚ)))) :=
  ⟨by decide, design_matrix_props 3 (by decide)⟩

end Picasso

namespace Picasso

/-! ### C1: the rcc trajectory is the prefix cumulative sum of the
pseudo-inverse solution -/

theorem length_colD (j : ℕ) (M : RMat) : (colD j M).length = M.length := by
  simp [colD]

theorem length_matMul (A B : RMat) : (matMul A B).length = A.length := by
  simp [matMul]

/-- C1: for every segment sequence of length `N ≥ 2` on which every
pairwise shift estimate succeeds (returning `sh p` for pair `p`), `rcc`
returns the trajectory pair `(trajY, trajX)` built from
`D = pinv(A) @ R`: both components have length `N`, entry 0 is `0`, and
entry `k` (for `1 ≤ k ≤ N-1`) is the sum of the first `k` per-step
increments of the corresponding column of `D`. -/
theorem rcc_trajectory (fft2 : RMat → CMat) (ifft2 : CMat → CMat)
    (sqrtF : ℚ → ℚ) (fitF : RMat → FitResult) (pinvF : RMat → RMat)
    (segments : List RMat) (ms : Option ℤ) (N : ℕ)
    (hN : segments.length = N) (h2 : 2 ≤ N) (sh : ℕ × ℕ → ℚ × ℚ)
    (hok : ∀ p ∈ pairsList N, get_image_shift fft2 ifft2 sqrtF fitF
        (segments.getD p.1 []) (segments.getD p.2 []) 5 ms = .ok (sh p))
    (hpinv : (pinvF (designA N)).length = N - 1) :
    rcc fft2 ifft2 sqrtF fitF pinvF segments ms =
      .ok (trajY pinvF N sh, trajX pinvF N sh) ∧
    (trajY pinvF N sh).length = N ∧
    (trajX pinvF N sh).length = N ∧
    (trajY pinvF N sh).getD 0 0 = 0 ∧
    (trajX pinvF N sh).getD 0 0 = 0 ∧
    (∀ k, 1 ≤ k → k < N →
      (trajY pinvF N sh).getD k 0 = ((colD 0 (solvedD pinvF N sh)).take k).sum ∧
      (trajX pinvF N sh).getD k 0 = ((colD 1 (solvedD pinvF N sh)).take k).sum) := by
  subst hN
  have hlen0 : (colD 0 (solvedD pinvF segments.length sh)).length =
      segments.length - 1 := by
    rw [length_colD, solvedD, length_matMul, hpinv]
  have hlen1 : (colD 1 (solvedD pinvF segments.length sh)).length =
      segments.length - 1 := by
    rw [length_colD, solvedD, length_matMul, hpinv]
  refine ⟨?_, ?_, ?_, rfl, rfl, ?_⟩
  · simp only [rcc]
    rw [if_neg (by omega : ¬ segments.length = 0)]
    rw [mapExcept_ok _ sh _ hok]
    simp only [List.map_map]
    rfl
  · simp only [trajY, List.length_cons, cumsum, cumsumFrom_length, hlen0]
    omega
  · simp only [trajX, List.length_cons, cumsum, cumsumFrom_length, hlen1]
    omega
  · intro k hk1 hk2
    cases k with
    | zero => omega
    | succ m =>
        have hm0 : m < (colD 0 (solvedD pinvF segments.length sh)).length := by
          omega
        have hm1 : m < (colD 1 (solvedD pinvF segments.length sh)).length := by
          omega
        constructor
        · rw [trajY, List.getD_cons_succ, cumsum_getD _ m hm0]
        · rw [trajX, List.getD_cons_succ, cumsum_getD _ m hm1]

theorem rcc_trajectory_witness :
    (2 : ℕ) ≤ 2 ∧
    rcc cFft cIfft cSqrt cFitZ cPinvOne [[[1]], [[0]]] none =
      .ok (trajY cPinvOne 2 (fun _ => (1/2, 1/2)),
           trajX cPinvOne 2 (fun _ => (1/2, 1/2))) :=
  ⟨by decide,
    (rcc_trajectory cFft cIfft cSqrt cFitZ cPinvOne [[[1]], [[0]]] none 2 rfl
      (by decide) (fun _ => (1/2, 1/2))
      (by
        intro p hp
        rw [show pairsList 2 = [(0, 1)] from rfl, List.mem_singleton] at hp
        subst hp
        have hx : xcorr cFft cIfft cSqrt [[1]] [[0]] = .ok [[0]] := by
          norm_num [xcorr, broadcastMul, bcompat, cols, entryD, bidx, matConj,
            matRe, fftshift2, roll, size, cFft, cIfft, cSqrt, CQ.mul, CQ.conj,
            List.range_succ]
        show get_image_shift cFft cIfft cSqrt cFitZ [[1]] [[0]] 5 none =
          .ok (1/2, 1/2)
        simp only [get_image_shift, hx]
        norm_num [shiftSearch, shiftFromWindow, argmaxIdx, cols, fitROIslice,
          pySlice2d, pySlice, pyBound, cFitZ, List.flatten])
      rfl).1⟩

end Picasso

namespace Picasso

/-! ### Python slice arithmetic -/

theorem pyBound_le (n : ℕ) (i : ℤ) : pyBound n i ≤ n := by
  unfold pyBound
  split <;> omega

theorem length_pySlice (l : List α) (a b : ℤ) :
    (pySlice l a b).length = pyBound l.length b - pyBound l.length a := by
  unfold pySlice
  rw [List.length_drop, List.length_take]
  have hb := pyBound_le l.length b
  omega

theorem mem_of_mem_pySlice (l : List α) (a b : ℤ) (x : α)
    (hx : x ∈ pySlice l a b) : x ∈ l := by
  unfold pySlice at hx
  exact List.mem_of_mem_take (List.mem_of_mem_drop hx)

theorem pySlice_stop_zero (l : List α) (a : ℤ) : pySlice l a 0 = [] := by
  unfold pySlice
  have h0 : pyBound l.length 0 = 0 := by
    unfold pyBound
    split <;> omega
  rw [h0, List.take_zero, List.drop_nil]

theorem pySlice_neg_center (l : List α) (k : ℕ) (h1 : 1 ≤ k)
    (h2 : k ≤ l.length) :
    pySlice l (k : ℤ) (-(k : ℤ)) = (l.drop k).take (l.length - 2 * k) := by
  unfold pySlice
  have ha : pyBound l.length (k : ℤ) = k := by
    unfold pyBound
    split <;> omega
  have hb : pyBound l.length (-(k : ℤ)) = l.length - k := by
    unfold pyBound
    split <;> omega
  rw [ha, hb, List.drop_take]
  congr 1
  omega

theorem shiftFromWindow_of_flatten_nil (fitF : RMat → FitResult)
    (XCorr : RMat) (Y X box : ℕ) (Y_ X_ : ℤ) (W : RMat)
    (h : W.flatten = []) :
    shiftFromWindow fitF XCorr Y X box Y_ X_ W = .error .emptyArgmax := by
  simp only [shiftFromWindow, h]
  rfl

/-- The `roi` crop of the source with a zero offset on either axis is
an empty slice. -/
theorem pySlice2d_zero_offset_flatten_nil (S : RMat) (Y_ X_ : ℤ)
    (h : Y_ = 0 ∨ X_ = 0) :
    (pySlice2d S Y_ (-Y_) X_ (-X_)).flatten = [] := by
  cases h with
  | inl h0 =>
      subst h0
      rw [neg_zero]
      unfold pySlice2d
      rw [pySlice_stop_zero]
      rfl
  | inr h0 =>
      subst h0
      rw [neg_zero]
      rw [List.flatten_eq_nil_iff]
      intro l hl
      unfold pySlice2d at hl
      obtain ⟨row, _, rfl⟩ := List.mem_map.mp hl
      exact pySlice_stop_zero row 0

/-- Shared helper: with a `roi` whose centred-crop offset is zero on
either axis, `get_image_shift` raises on the empty search window. -/
theorem gis_zero_offset_error (fft2 : RMat → CMat) (ifft2 : CMat → CMat)
    (sqrtF : ℚ → ℚ) (fitF : RMat → FitResult) (A B : RMat) (box : ℕ)
    (r : ℤ) (S : RMat) (hxc : xcorr fft2 ifft2 sqrtF A B = .ok S)
    (h : pyTruncHalf ((A.length : ℤ) - r) = 0 ∨
         pyTruncHalf ((cols A : ℤ) - r) = 0) :
    get_image_shift fft2 ifft2 sqrtF fitF A B box (some r) =
      .error .emptyArgmax := by
  simp only [get_image_shift, hxc, shiftSearch]
  exact shiftFromWindow_of_flatten_nil fitF S A.length (cols A) box _ _ _
    (pySlice2d_zero_offset_flatten_nil S _ _ h)

/-! ### C9: degenerate roi crops -/

/-- C9: with a `roi` such that either centred-crop offset
`⌊(H-roi)/2⌋` or `⌊(W-roi)/2⌋` is zero (for example `roi = H`), the
slice `XCorr[Y_:-Y_, X_:-X_]` is empty and the argmax raises instead of
falling back to the full surface; and when `H - roi` is odd (with a
positive offset), the cropped window has `roi + 1` rows, not `roi`. -/
theorem roi_degenerate_crop (fft2 : RMat → CMat) (ifft2 : CMat → CMat)
    (sqrtF : ℚ → ℚ) (fitF : RMat → FitResult) (A B : RMat) (box : ℕ)
    (r : ℤ) (S : RMat) (hxc : xcorr fft2 ifft2 sqrtF A B = .ok S)
    (hSr : S.length = A.length) (h0r : 0 ≤ r) :
    ((pyTruncHalf ((A.length : ℤ) - r) = 0 ∨
        pyTruncHalf ((cols A : ℤ) - r) = 0) →
      get_image_shift fft2 ifft2 sqrtF fitF A B box (some r) =
        .error .emptyArgmax) ∧
    (∀ m : ℕ, (A.length : ℤ) - r = 2 * m + 1 → 1 ≤ m →
      ((pySlice2d S (pyTruncHalf ((A.length : ℤ) - r))
          (-(pyTruncHalf ((A.length : ℤ) - r)))
          (pyTruncHalf ((cols A : ℤ) - r))
          (-(pyTruncHalf ((cols A : ℤ) - r)))).length : ℤ) = r + 1) := by
  constructor
  · intro h
    exact gis_zero_offset_error fft2 ifft2 sqrtF fitF A B box r S hxc h
  · intro m hm hm1
    have hy0 : pyTruncHalf ((A.length : ℤ) - r) = (m : ℤ) := by
      unfold pyTruncHalf
      rw [if_pos (by omega)]
      omega
    rw [hy0]
    unfold pySlice2d
    rw [List.length_map, length_pySlice, hSr]
    have hb1 : pyBound A.length (-(m : ℤ)) = A.length - m := by
      unfold pyBound
      split <;> omega
    have hb2 : pyBound A.length (m : ℤ) = m := by
      unfold pyBound
      split <;> omega
    rw [hb1, hb2]
    omega

theorem roi_degenerate_crop_witness :
    ((pyTruncHalf ((ones3.length : ℤ) - 0) = 0 ∨
        pyTruncHalf ((cols ones3 : ℤ) - 0) = 0) →
      get_image_shift cFft cIfft cSqrt cFitZ ones3 ones3 5 (some 0) =
        .error .emptyArgmax) ∧
    (∀ m : ℕ, (ones3.length : ℤ) - 0 = 2 * m + 1 → 1 ≤ m →
      ((pySlice2d cSurf3 (pyTruncHalf ((ones3.length : ℤ) - 0))
          (-(pyTruncHalf ((ones3.length : ℤ) - 0)))
          (pyTruncHalf ((cols ones3 : ℤ) - 0))
          (-(pyTruncHalf ((cols ones3 : ℤ) - 0)))).length : ℤ) = 0 + 1) :=
  roi_degenerate_crop cFft cIfft cSqrt cFitZ ones3 ones3 5 0 cSurf3
    rfl rfl (by decide)

end Picasso

namespace Picasso

/-! ### C6: the roi search window -/

theorem pySlice2d_eq_centeredCrop (S : RMat) (W : ℕ) (Y_ X_ : ℤ)
    (hSc : ∀ row ∈ S, row.length = W)
    (hy1 : 1 ≤ Y_) (hyS : Y_ ≤ (S.length : ℤ))
    (hx1 : 1 ≤ X_) (hxW : X_ ≤ (W : ℤ)) :
    pySlice2d S Y_ (-Y_) X_ (-X_) = centeredCrop S Y_.toNat X_.toNat := by
  have hYcast : Y_ = ((Y_.toNat : ℕ) : ℤ) := (Int.toNat_of_nonneg (by omega)).symm
  have hXcast : X_ = ((X_.toNat : ℕ) : ℤ) := (Int.toNat_of_nonneg (by omega)).symm
  unfold pySlice2d centeredCrop
  conv_lhs => rw [hYcast, hXcast]
  rw [pySlice_neg_center S Y_.toNat (by omega) (by omega)]
  apply List.map_congr_left
  intro row hrow
  have hmem : row ∈ S := List.mem_of_mem_drop (List.mem_of_mem_take hrow)
  have hrl : row.length = W := hSc row hmem
  rw [pySlice_neg_center row X_.toNat (by omega) (by omega)]

/-- C6 (amended): with a `roi` whose centred-crop offsets
`Y₀ = ⌊(H-roi)/2⌋` and `X₀ = ⌊(W-roi)/2⌋` are both at least 1, the
peak search of `get_image_shift` is restricted to the centred window of
rows `Y₀ .. H-Y₀-1` and columns `X₀ .. W-X₀-1` of the correlation
surface (side `roi` along an axis whose extent difference is even,
`roi+1` when odd) with the argmax mapped back by adding `(Y₀, X₀)`;
when either offset is 0 the cropped search window is empty and the call
fails instead of searching the full surface. -/
theorem roi_search_window (fft2 : RMat → CMat) (ifft2 : CMat → CMat)
    (sqrtF : ℚ → ℚ) (fitF : RMat → FitResult) (A B : RMat) (box : ℕ)
    (r : ℤ) (S : RMat) (hxc : xcorr fft2 ifft2 sqrtF A B = .ok S)
    (hSr : S.length = A.length) (hSc : ∀ row ∈ S, row.length = cols A)
    (h0r : 0 ≤ r) (hrY : r ≤ (A.length : ℤ)) (hrX : r ≤ (cols A : ℤ)) :
    ((pyTruncHalf ((A.length : ℤ) - r) = 0 ∨
        pyTruncHalf ((cols A : ℤ) - r) = 0) →
      get_image_shift fft2 ifft2 sqrtF fitF A B box (some r) =
        .error .emptyArgmax) ∧
    (1 ≤ pyTruncHalf ((A.length : ℤ) - r) →
      1 ≤ pyTruncHalf ((cols A : ℤ) - r) →
      get_image_shift fft2 ifft2 sqrtF fitF A B box (some r) =
        shiftSearchSpec fitF S A.length (cols A) box r) := by
  have hYv : pyTruncHalf ((A.length : ℤ) - r) =
      (((((A.length : ℤ) - r).toNat / 2 : ℕ)) : ℤ) := by
    unfold pyTruncHalf
    rw [if_pos (by omega)]
  have hXv : pyTruncHalf ((cols A : ℤ) - r) =
      (((((cols A : ℤ) - r).toNat / 2 : ℕ)) : ℤ) := by
    unfold pyTruncHalf
    rw [if_pos (by omega)]
  constructor
  · intro h
    exact gis_zero_offset_error fft2 ifft2 sqrtF fitF A B box r S hxc h
  · intro hy1 hx1
    simp only [get_image_shift, hxc, shiftSearch, shiftSearchSpec]
    congr 1
    apply pySlice2d_eq_centeredCrop S (cols A) _ _ hSc hy1 (by omega) hx1 (by omega)

/-- C6 counterexample: a 4-pixel image with `roi = 1 < H = W = 2` — the
claimed centred 1×1 search is never performed; the offsets are
`⌊(2-1)/2⌋ = 0`, the crop `XCorr[0:-0, 0:-0]` is empty and the call
raises instead of returning an argmax mapped back to the surface. -/
theorem roi_centered_window_cex :
    (1 : ℤ) < (([[1, 1], [1, 1]] : RMat).length : ℤ) ∧
    get_image_shift cFft cIfft cSqrt cFitZ [[1, 1], [1, 1]] [[1, 1], [1, 1]]
      5 (some 1) = .error .emptyArgmax :=
  ⟨by decide, rfl⟩

theorem roi_search_window_witness :
    ((pyTruncHalf ((ones3.length : ℤ) - 1) = 0 ∨
        pyTruncHalf ((cols ones3 : ℤ) - 1) = 0) →
      get_image_shift cFft cIfft cSqrt cFitZ ones3 ones3 5 (some 1) =
        .error .emptyArgmax) ∧
    (1 ≤ pyTruncHalf ((ones3.length : ℤ) - 1) →
      1 ≤ pyTruncHalf ((cols ones3 : ℤ) - 1) →
      get_image_shift cFft cIfft cSqrt cFitZ ones3 ones3 5 (some 1) =
        shiftSearchSpec cFitZ cSurf3 ones3.length (cols ones3) 5 1) :=
  roi_search_window cFft cIfft cSqrt cFitZ ones3 ones3 5 1 cSurf3 rfl rfl
    (by decide) (by decide) (by decide) (by decide)

end Picasso

namespace Picasso

/-! ### C10: fit windows near the border are truncated -/

theorem pyBound_window_le (n p f : ℕ) (hp : p < n) :
    pyBound n ((p : ℤ) + f + 1) - pyBound n ((p : ℤ) - f) ≤ 2 * f + 1 := by
  unfold pyBound
  split <;> split <;> omega

theorem pyBound_window_lt (n p f : ℕ) (hp : p < n)
    (hb : p < f ∨ n ≤ p + f) :
    pyBound n ((p : ℤ) + f + 1) - pyBound n ((p : ℤ) - f) < 2 * f + 1 := by
  unfold pyBound
  split <;> split <;> omega

theorem length_centeredAt (M : RMat) (py px fx : ℕ) :
    (centeredAt M py px fx).length = 2 * fx + 1 := by
  simp [centeredAt]

theorem cols_centeredAt (M : RMat) (py px fx : ℕ) :
    cols (centeredAt M py px fx) = 2 * fx + 1 := by
  unfold centeredAt cols
  cases h : List.range (2 * fx + 1) with
  | nil =>
      exfalso
      have := List.range_eq_nil.mp h
      omega
  | cons a t =>
      simp only [List.map_cons, List.headD_cons, List.length_map,
        List.length_cons]
      have hlen := congrArg List.length h
      simp only [List.length_range, List.length_cons] at hlen
      omega

/-- C10: whenever the integer peak `(ymax + Y₀, xmax + X₀)` lies within
`fx = ⌊box/2⌋` pixels of the border of the full `H × W` correlation
surface, the slice bounds of the fit window wrap around (negative
start) or are clipped (stop past the extent), so the extracted `FitROI`
holds strictly fewer than `(2*fx+1) × (2*fx+1)` entries (possibly
none), and in particular is not the full fit window centred at the
peak. -/
theorem fit_window_truncated (S : RMat) (H W ymax xmax y0 x0 fx : ℕ)
    (hSr : S.length = H) (hSc : ∀ row ∈ S, row.length = W)
    (hy : ymax + y0 < H) (hxw : xmax + x0 < W)
    (hborder : ymax + y0 < fx ∨ H ≤ ymax + y0 + fx ∨
               xmax + x0 < fx ∨ W ≤ xmax + x0 + fx) :
    (fitROIslice S ymax xmax (y0 : ℤ) (x0 : ℤ) fx).length *
        cols (fitROIslice S ymax xmax (y0 : ℤ) (x0 : ℤ) fx) <
      (2 * fx + 1) * (2 * fx + 1) ∧
    fitROIslice S ymax xmax (y0 : ℤ) (x0 : ℤ) fx ≠
      centeredAt S (ymax + y0) (xmax + x0) fx := by
  have ha : ((ymax : ℤ) - fx + y0) = ((ymax + y0 : ℕ) : ℤ) - fx := by
    push_cast; ring
  have hb : ((ymax : ℤ) + fx + y0 + 1) = ((ymax + y0 : ℕ) : ℤ) + fx + 1 := by
    push_cast; ring
  have hc : ((xmax : ℤ) - fx + x0) = ((xmax + x0 : ℕ) : ℤ) - fx := by
    push_cast; ring
  have hd : ((xmax : ℤ) + fx + x0 + 1) = ((xmax + x0 : ℕ) : ℤ) + fx + 1 := by
    push_cast; ring
  have hfit : fitROIslice S ymax xmax (y0 : ℤ) (x0 : ℤ) fx =
      (pySlice S (((ymax + y0 : ℕ) : ℤ) - fx) (((ymax + y0 : ℕ) : ℤ) + fx + 1)).map
        (fun row =>
          pySlice row (((xmax + x0 : ℕ) : ℤ) - fx) (((xmax + x0 : ℕ) : ℤ) + fx + 1)) := by
    unfold fitROIslice pySlice2d
    rw [ha, hb, hc, hd]
  have hRlen : (pySlice S (((ymax + y0 : ℕ) : ℤ) - fx)
      (((ymax + y0 : ℕ) : ℤ) + fx + 1)).length =
      pyBound H (((ymax + y0 : ℕ) : ℤ) + fx + 1) -
        pyBound H (((ymax + y0 : ℕ) : ℤ) - fx) := by
    rw [length_pySlice, hSr]
  have hRle : (pySlice S (((ymax + y0 : ℕ) : ℤ) - fx)
      (((ymax + y0 : ℕ) : ℤ) + fx + 1)).length ≤ 2 * fx + 1 := by
    rw [hRlen]
    exact pyBound_window_le H (ymax + y0) fx hy
  have hmain : (fitROIslice S ymax xmax (y0 : ℤ) (x0 : ℤ) fx).length *
      cols (fitROIslice S ymax xmax (y0 : ℤ) (x0 : ℤ) fx) <
      (2 * fx + 1) * (2 * fx + 1) := by
    rw [hfit]
    cases hcase : pySlice S (((ymax + y0 : ℕ) : ℤ) - fx)
        (((ymax + y0 : ℕ) : ℤ) + fx + 1) with
    | nil =>
        simp only [List.map_nil, List.length_nil, Nat.zero_mul]
        exact Nat.mul_pos (by omega) (by omega)
    | cons rh rt =>
        have hrhS : rh ∈ S := by
          apply mem_of_mem_pySlice S (((ymax + y0 : ℕ) : ℤ) - fx)
            (((ymax + y0 : ℕ) : ℤ) + fx + 1)
          rw [hcase]
          exact List.mem_cons_self rh rt
        have hrhW : rh.length = W := hSc rh hrhS
        have hcols : cols ((rh :: rt).map
            (fun row => pySlice row (((xmax + x0 : ℕ) : ℤ) - fx)
              (((xmax + x0 : ℕ) : ℤ) + fx + 1))) =
            pyBound W (((xmax + x0 : ℕ) : ℤ) + fx + 1) -
              pyBound W (((xmax + x0 : ℕ) : ℤ) - fx) := by
          simp only [cols, List.map_cons, List.headD_cons]
          rw [length_pySlice, hrhW]
        have hcols_le : cols ((rh :: rt).map
            (fun row => pySlice row (((xmax + x0 : ℕ) : ℤ) - fx)
              (((xmax + x0 : ℕ) : ℤ) + fx + 1))) ≤ 2 * fx + 1 := by
          rw [hcols]
          exact pyBound_window_le W (xmax + x0) fx hxw
        have hrowslen : (rh :: rt).length =
            pyBound H (((ymax + y0 : ℕ) : ℤ) + fx + 1) -
              pyBound H (((ymax + y0 : ℕ) : ℤ) - fx) := by
          rw [← hcase, hRlen]
        have hrows_le : (rh :: rt).length ≤ 2 * fx + 1 := by
          rw [← hcase]
          exact hRle
        rw [List.length_map]
        rcases hborder with hby | hby | hbx | hbx
        · have hlt : (rh :: rt).length < 2 * fx + 1 := by
            rw [hrowslen]
            exact pyBound_window_lt H (ymax + y0) fx hy (Or.inl hby)
          calc (rh :: rt).length * cols ((rh :: rt).map _) ≤
              (rh :: rt).length * (2 * fx + 1) :=
                Nat.mul_le_mul_left _ hcols_le
            _ < (2 * fx + 1) * (2 * fx + 1) :=
                mul_lt_mul_of_pos_right hlt (by omega)
        · have hlt : (rh :: rt).length < 2 * fx + 1 := by
            rw [hrowslen]
            exact pyBound_window_lt H (ymax + y0) fx hy (Or.inr hby)
          calc (rh :: rt).length * cols ((rh :: rt).map _) ≤
              (rh :: rt).length * (2 * fx + 1) :=
                Nat.mul_le_mul_left _ hcols_le
            _ < (2 * fx + 1) * (2 * fx + 1) :=
                mul_lt_mul_of_pos_right hlt (by omega)
        · have hlt : cols ((rh :: rt).map
              (fun row => pySlice row (((xmax + x0 : ℕ) : ℤ) - fx)
                (((xmax + x0 : ℕ) : ℤ) + fx + 1))) < 2 * fx + 1 := by
            rw [hcols]
            exact pyBound_window_lt W (xmax + x0) fx hxw (Or.inl hbx)
          calc (rh :: rt).length * cols ((rh :: rt).map _) ≤
              (2 * fx + 1) * cols ((rh :: rt).map _) :=
                Nat.mul_le_mul_right _ hrows_le
            _ < (2 * fx + 1) * (2 * fx + 1) :=
                mul_lt_mul_of_pos_left hlt (by omega)
        · have hlt : cols ((rh :: rt).map
              (fun row => pySlice row (((xmax + x0 : ℕ) : ℤ) - fx)
                (((xmax + x0 : ℕ) : ℤ) + fx + 1))) < 2 * fx + 1 := by
            rw [hcols]
            exact pyBound_window_lt W (xmax + x0) fx hxw (Or.inr hbx)
          calc (rh :: rt).length * cols ((rh :: rt).map _) ≤
              (2 * fx + 1) * cols ((rh :: rt).map _) :=
                Nat.mul_le_mul_right _ hrows_le
            _ < (2 * fx + 1) * (2 * fx + 1) :=
                mul_lt_mul_of_pos_left hlt (by omega)
  refine ⟨hmain, fun heq => ?_⟩
  rw [heq, length_centeredAt, cols_centeredAt] at hmain
  exact lt_irrefl _ hmain

theorem fit_window_truncated_witness :
    (fitROIslice [[1, 1, 1, 1], [1, 1, 1, 1], [1, 1, 1, 1], [1, 1, 1, 1]]
        0 0 ((0 : ℕ) : ℤ) ((0 : ℕ) : ℤ) 2).length *
      cols (fitROIslice [[1, 1, 1, 1], [1, 1, 1, 1], [1, 1, 1, 1], [1, 1, 1, 1]]
        0 0 ((0 : ℕ) : ℤ) ((0 : ℕ) : ℤ) 2) < (2 * 2 + 1) * (2 * 2 + 1) ∧
    fitROIslice [[1, 1, 1, 1], [1, 1, 1, 1], [1, 1, 1, 1], [1, 1, 1, 1]]
        0 0 ((0 : ℕ) : ℤ) ((0 : ℕ) : ℤ) 2 ≠
      centeredAt [[1, 1, 1, 1], [1, 1, 1, 1], [1, 1, 1, 1], [1, 1, 1, 1]]
        (0 + 0) (0 + 0) 2 :=
  fit_window_truncated [[1, 1, 1, 1], [1, 1, 1, 1], [1, 1, 1, 1], [1, 1, 1, 1]]
    4 4 0 0 0 0 2 rfl (by decide) (by decide) (by decide) (by decide)

end Picasso

namespace Picasso

/-! ### C8: xcorr matches the spec composition on equal shapes -/

theorem bidx_lt (n i : ℕ) (h : i < n) : bidx n i = i := by
  unfold bidx
  split
  · omega
  · rfl

theorem broadcastMul_eq_zipWith (P Q : CMat) (w : ℕ) (hl : P.length = Q.length)
    (hP : ∀ r ∈ P, r.length = w) (hQ : ∀ r ∈ Q, r.length = w) :
    broadcastMul P Q =
      .ok (List.zipWith (fun r s => List.zipWith CQ.mul r s) P Q) := by
  have hg : (bcompat P.length Q.length && bcompat (cols P) (cols Q)) = true := by
    have h1 : bcompat P.length Q.length = true := by simp [bcompat, hl]
    have h2 : bcompat (cols P) (cols Q) = true := by
      have hcc : cols P = cols Q := by
        cases P with
        | nil =>
            cases Q with
            | nil => rfl
            | cons q qt => simp at hl
        | cons p pt =>
            cases Q with
            | nil => simp at hl
            | cons q qt =>
                show p.length = q.length
                rw [hP p (List.mem_cons_self p pt), hQ q (List.mem_cons_self q qt)]
      simp [bcompat, hcc]
    rw [h1, h2]
    rfl
  unfold broadcastMul
  rw [if_pos hg]
  congr 1
  apply List.ext_getElem
  · simp only [List.length_map, List.length_range, List.length_zipWith]
    omega
  · intro i h1 h2
    have hiP : i < P.length := by
      simp only [List.length_map, List.length_range] at h1
      omega
    have hiQ : i < Q.length := by omega
    have hPi : P[i].length = w := hP P[i] (List.getElem_mem hiP)
    have hQi : Q[i].length = w := hQ Q[i] (List.getElem_mem hiQ)
    have hcP : cols P = w := by
      cases P with
      | nil => simp at hiP
      | cons p pt => exact hP p (List.mem_cons_self p pt)
    have hcQ : cols Q = w := by
      cases Q with
      | nil => simp at hiQ
      | cons q qt => exact hQ q (List.mem_cons_self q qt)
    simp only [List.getElem_map, List.getElem_range, List.getElem_zipWith]
    apply List.ext_getElem
    · simp only [List.length_map, List.length_range, List.length_zipWith,
        hcP, hcQ, hPi, hQi]
      omega
    · intro j hj1 hj2
      have hjw : j < w := by
        simp only [List.length_map, List.length_range, hcP, hcQ] at hj1
        omega
      simp only [List.getElem_map, List.getElem_range, List.getElem_zipWith]
      unfold entryD
      rw [hcP, hcQ, bidx_lt P.length i hiP, bidx_lt Q.length i hiQ,
        bidx_lt w j hjw]
      rw [List.getD_eq_getElem P [] hiP, List.getD_eq_getElem Q [] hiQ,
        List.getD_eq_getElem P[i] _ (by rw [hPi]; omega),
        List.getD_eq_getElem Q[i] _ (by rw [hQi]; omega)]

/-- C8: for equal-shaped inputs (under any shape-preserving transform
pair standing for the numpy FFTs), `xcorr(A, B)` equals exactly the
spec's composition: the real part of the inverse transform of the
cross-power product `FA * conj(FB)`, with the zero-lag component
shifted to the array centre and the whole surface divided by
`sqrt(H * W)`; being a pure function of its arguments, it is
deterministic and has no side effects. -/
theorem xcorr_matches_spec (fft2 : RMat → CMat) (ifft2 : CMat → CMat)
    (sqrtF : ℚ → ℚ) (A B : RMat)
    (hAr : (fft2 A).length = A.length)
    (hAc : ∀ row ∈ fft2 A, row.length = cols A)
    (hBr : (fft2 B).length = B.length)
    (hBc : ∀ row ∈ fft2 B, row.length = cols B)
    (hrows : A.length = B.length) (hcols : cols A = cols B) :
    xcorr fft2 ifft2 sqrtF A B = .ok (specXcorr fft2 ifft2 sqrtF A B) := by
  have hbm : broadcastMul (fft2 A) (matConj (fft2 B)) =
      .ok (List.zipWith (fun r s => List.zipWith CQ.mul r s)
        (fft2 A) (matConj (fft2 B))) := by
    apply broadcastMul_eq_zipWith (fft2 A) (matConj (fft2 B)) (cols A)
    · rw [length_matConj, hAr, hBr, hrows]
    · exact hAc
    · intro r hr
      obtain ⟨r0, hr0, rfl⟩ := List.mem_map.mp hr
      rw [List.length_map, hBc r0 hr0, hcols]
  unfold xcorr specXcorr
  rw [hbm]
  rfl

theorem xcorr_matches_spec_witness :
    ([[1]] : RMat).length = ([[2]] : RMat).length ∧
    xcorr cFft cIfft cSqrt [[1]] [[2]] =
      .ok (specXcorr cFft cIfft cSqrt [[1]] [[2]]) :=
  ⟨rfl,
    xcorr_matches_spec cFft cIfft cSqrt [[1]] [[2]] rfl (by decide) rfl
      (by decide) rfl rfl⟩

end Picasso
